import Mathlib

set_option maxHeartbeats 1000000

namespace Ipt

/-! Shallow embedding of the `rust-iptables` crate (`src/lib.rs`, `src/error.rs`).
External effects (child processes, the lock file, `flock`) are modelled by an
explicit environment `RunEnv` describing the outcomes the operating system
would deliver, and every invocation additionally returns a trace of the
externally visible events it performed, in order. -/

/-- Mirrors `IPTError` from `src/error.rs`.  The payloads of `Io`, `Regex` and
`Parse` (an `io::Error`, a `regex::Error`, a `ParseIntError`) are abstracted to
a numeric error kind; `Nix` carries the errno of the failed system call, as in
the source.  The `Io` constructor is spelled `IoErr` here. -/
inductive IPTError where
  | IoErr : Nat → IPTError
  | RegexErr : Nat → IPTError
  | Nix : Int → IPTError
  | Parse : Nat → IPTError
  | BadExitStatus : Int → IPTError
  | Other : String → IPTError
deriving DecidableEq

/-- Mirrors `IPTResult<T> = Result<T, IPTError>` from `src/error.rs`. -/
inductive IPTResult (α : Type) where
  | ok : α → IPTResult α
  | error : IPTError → IPTResult α
deriving DecidableEq

/-- Mirrors `std::process::Output` as used by the crate: captured stdout
(modelled as a string, the crate reads it through `from_utf8_lossy`) and
`status.code()`, which is `none` when no exit code is available (e.g. the
child was killed by a signal). -/
structure Output where
  stdout : String
  code : Option Int
deriving DecidableEq

/-- Mirrors the `IPTables` struct from `src/lib.rs` (lines 80-89). -/
structure IPTables where
  cmd : String
  has_check : Bool
  has_wait : Bool
deriving DecidableEq

/-- Externally visible events performed by `run`, in order. -/
inductive Event where
  | lockCreated
  | flockRetry
  | flockOk
  | flockFail (errno : Int)
  | spawn (args : List String)
  | lockClosed
deriving DecidableEq

/-- Outcome of one attempted child-process execution (`Command::output()`):
either a captured `Output` or an `io::Error` of some kind. -/
inductive SpawnOutcome where
  | success (out : Output)
  | ioError (kind : Nat)
deriving DecidableEq

/-- The environment of one `run` call: what the operating system answers to
the `Command::output()` call, to `File::create` on the lock file (`none` means
success, `some k` an `io::Error` of kind `k`), and to the successive `flock`
attempts (`none` means the lock was granted, `some e` means failure with
errno `e`). -/
structure RunEnv where
  spawnResult : SpawnOutcome
  createResult : Option Nat
  flockSeq : List (Option Int)
deriving DecidableEq

/-- The errno for "operation would block" on Linux. -/
def EAGAIN : Int := 11

/-- Result of the `flock` busy loop: the lock was acquired, or a fatal
(non-`EAGAIN`) errno was returned. -/
inductive FlockOut where
  | acquired
  | fatal (errno : Int)
deriving DecidableEq

/-- The `while need_retry { match flock(..) ... }` loop of `run`
(`src/lib.rs` lines 396-412): each attempt either succeeds, fails with
`EAGAIN` (retry), or fails with another errno (fatal).  The environment
lists the outcomes of successive attempts; exhausting the list while still
retrying models the loop never terminating, hence the outer `Option`. -/
def flockLoop : List (Option Int) → Option (FlockOut × List Event)
  | [] => none
  | o :: rest =>
    match o with
    | none => some (FlockOut.acquired, [Event.flockOk])
    | some e =>
      if e = EAGAIN then
        match flockLoop rest with
        | none => none
        | some (r, evs) => some (r, Event.flockRetry :: evs)
      else some (FlockOut.fatal e, [Event.flockFail e])

/-- The final `match output.status.code()` of `run` (`src/lib.rs` lines
423-427): `None` and `Some(0)` yield the output, `Some(i)` with nonzero `i`
yields `BadExitStatus(i)`. -/
def exitToResult (out : Output) : IPTResult Output :=
  match out.code with
  | none => IPTResult.ok out
  | some i => if i = 0 then IPTResult.ok out else IPTResult.error (IPTError.BadExitStatus i)

/-- The process invoker `run` (`src/lib.rs` lines 385-428).  With `has_wait`
the argument `--wait` is appended and the process is spawned directly.
Without it, the lock file is created, the `flock` busy loop runs, the process
is spawned while the lock is held, and the file is closed (dropped) before
returning on every path on which it was opened.  The result is `none` when
the busy loop never terminates in the given environment. -/
def run (ipt : IPTables) (args : List String) (env : RunEnv) :
    Option (IPTResult Output × List Event) :=
  if ipt.has_wait then
    match env.spawnResult with
    | SpawnOutcome.ioError k =>
        some (IPTResult.error (IPTError.IoErr k), [Event.spawn (args ++ ["--wait"])])
    | SpawnOutcome.success out =>
        some (exitToResult out, [Event.spawn (args ++ ["--wait"])])
  else
    match env.createResult with
    | some k => some (IPTResult.error (IPTError.IoErr k), [])
    | none =>
      match flockLoop env.flockSeq with
      | none => none
      | some (FlockOut.fatal e, evs) =>
          some (IPTResult.error (IPTError.Nix e), Event.lockCreated :: evs ++ [Event.lockClosed])
      | some (FlockOut.acquired, evs) =>
          match env.spawnResult with
          | SpawnOutcome.ioError k =>
              some (IPTResult.error (IPTError.IoErr k),
                Event.lockCreated :: evs ++ [Event.spawn args, Event.lockClosed])
          | SpawnOutcome.success out =>
              some (exitToResult out,
                Event.lockCreated :: evs ++ [Event.spawn args, Event.lockClosed])

/-- The single-quote character, written by code point to keep source plain. -/
def squote : Char := Char.ofNat 39

/-- The double-quote character, written by code point. -/
def dquote : Char := Char.ofNat 34

/-- The character class `["']` of the splitting regex. -/
def isQuote (c : Char) : Bool := c = dquote || c = squote

/-- Helper for `scanClose`: after the opening quote and at least one character
consumed by `.+?`, lazily look for the nearest closing quote character (of
either kind); `.` does not match a newline, so hitting one fails the quoted
alternative.  Returns the matched remainder (dot characters and the closing
quote) and the rest of the input. -/
def scanCloseGo (acc : List Char) : List Char → Option (List Char × List Char)
  | [] => none
  | d :: rest =>
    if isQuote d then some (acc.reverse ++ [d], rest)
    else if d = Char.ofNat 10 then none
    else scanCloseGo (d :: acc) rest

/-- Attempt of the first regex alternative `["'].+?["']` after its opening
quote was consumed: `.+?` needs at least one non-newline character, then the
nearest quote character closes the span. -/
def scanClose : List Char → Option (List Char × List Char)
  | [] => none
  | c :: rest => if c = Char.ofNat 10 then none else scanCloseGo [c] rest

/-- One splitting pass of `RE_SPLIT.find_iter` (`src/lib.rs` lines 45-65):
matches never start on a space; at a quote character the first alternative
`["'].+?["']` is tried (lazy, delimiters of either kind), otherwise — or when
it fails — the greedy second alternative `[^ ]+` matches the maximal run of
non-space characters.  The first argument is a structural-recursion bound;
any bound of at least the input length gives the regex semantics. -/
def splitQuotedB : Nat → List Char → List (List Char)
  | _, [] => []
  | 0, _ :: _ => []
  | Nat.succ b, c :: rest =>
    if c = ' ' then splitQuotedB b rest
    else if isQuote c then
      match scanClose rest with
      | some br => (c :: br.1) :: splitQuotedB b br.2
      | none =>
          (c :: rest.takeWhile (fun d => d != ' ')) ::
            splitQuotedB b (rest.dropWhile (fun d => d != ' '))
    else
      (c :: rest.takeWhile (fun d => d != ' ')) ::
        splitQuotedB b (rest.dropWhile (fun d => d != ' '))

/-- The raw regex matches of `split_quoted`, before quote trimming. -/
def splitQuotedCore (l : List Char) : List (List Char) := splitQuotedB l.length l

/-- `str::trim_matches(|c| c == dquote || c == squote)`: remove every leading
and every trailing quote character of the token. -/
def trimQuotes (l : List Char) : List Char :=
  ((l.dropWhile isQuote).reverse.dropWhile isQuote).reverse

/-- `split_quoted` (`src/lib.rs` lines 53-65): regex matches with surrounding
quote characters trimmed from each token.  Total: no input is an error. -/
def split_quoted (s : String) : List String :=
  (splitQuotedCore s.data).map (fun t => String.mk (trimQuotes t))

/-- Maximal runs of non-space characters, used to state what the tokenizer
does on inputs without quote characters (same bounded-recursion scheme). -/
def wordsB : Nat → List Char → List (List Char)
  | _, [] => []
  | 0, _ :: _ => []
  | Nat.succ b, c :: rest =>
    if c = ' ' then wordsB b rest
    else
      (c :: rest.takeWhile (fun d => d != ' ')) ::
        wordsB b (rest.dropWhile (fun d => d != ' '))

/-- Maximal runs of non-space characters of `l`. -/
def wordsOf (l : List Char) : List (List Char) := wordsB l.length l

/-- Helper for `specTokens`: characters strictly before the first occurrence
of `q`, and the rest after it. -/
def findMatching (q : Char) : List Char → Option (List Char × List Char)
  | [] => none
  | c :: rest =>
    if c = q then some ([], rest)
    else
      match findMatching q rest with
      | some pr => some (c :: pr.1, pr.2)
      | none => none

/-- The tokenizer that the specification sentence describes, written from the
spec's words for comparison with `split_quoted`: a span delimited by MATCHING
single or double quotes is one token with the two delimiting quote characters
stripped; any other maximal run of non-space characters is one token, emitted
verbatim. -/
def specTokensB : Nat → List Char → List (List Char)
  | _, [] => []
  | 0, _ :: _ => []
  | Nat.succ b, c :: rest =>
    if c = ' ' then specTokensB b rest
    else if isQuote c then
      match findMatching c rest with
      | some pr => pr.1 :: specTokensB b pr.2
      | none =>
          (c :: rest.takeWhile (fun d => d != ' ')) ::
            specTokensB b (rest.dropWhile (fun d => d != ' '))
    else
      (c :: rest.takeWhile (fun d => d != ' ')) ::
        specTokensB b (rest.dropWhile (fun d => d != ' '))

/-- Spec-described tokens of a string (matching-quote reading). -/
def specTokens (s : String) : List String :=
  (specTokensB s.data.length s.data).map (fun t => String.mk t)

/-- Index of the first quote character (of either kind) in a list, if any. -/
def nearestQuoteIdx : List Char → Option Nat
  | [] => none
  | d :: rest => if isQuote d then some 0 else (nearestQuoteIdx rest).map (· + 1)

/-- Index, inside the remainder after an opening quote, of the nearest
subsequent quote character of either kind that can close the span: the lazy
`.+?` consumes at least one character, so the closing quote is the first
quote character at index at least 1. -/
def closeIdx (rest : List Char) : Option Nat :=
  match rest with
  | [] => none
  | _ :: tail => (nearestQuoteIdx tail).map (· + 1)

/-- The tokenizer that the AMENDED claim describes, written from its words:
scanning left to right and skipping spaces, a span opened by a quote
character and closed by the nearest subsequent quote character of either
kind — at least one character between them, and no newline among the
intervening characters — is one token, stripped of all its leading and
trailing quote characters; when no such closing quote exists (or a newline
intervenes), and at every other non-space position, the maximal run of
non-space characters is one token, likewise stripped of its leading and
trailing quote characters.  Same bounded-recursion scheme as
`splitQuotedB`. -/
def amendedTokensB : Nat → List Char → List (List Char)
  | _, [] => []
  | 0, _ :: _ => []
  | Nat.succ b, c :: rest =>
    if c = ' ' then amendedTokensB b rest
    else if isQuote c then
      match closeIdx rest with
      | some j =>
        if (rest.take j).all (fun d => d != Char.ofNat 10) then
          trimQuotes (c :: rest.take (j + 1)) :: amendedTokensB b (rest.drop (j + 1))
        else
          trimQuotes (c :: rest.takeWhile (fun d => d != ' ')) ::
            amendedTokensB b (rest.dropWhile (fun d => d != ' '))
      | none =>
          trimQuotes (c :: rest.takeWhile (fun d => d != ' ')) ::
            amendedTokensB b (rest.dropWhile (fun d => d != ' '))
    else
      trimQuotes (c :: rest.takeWhile (fun d => d != ' ')) ::
        amendedTokensB b (rest.dropWhile (fun d => d != ' '))

/-- Amended-claim tokens of a string. -/
def amendedTokens (s : String) : List String :=
  (amendedTokensB s.data.length s.data).map (fun t => String.mk t)

/-- The `has_check` expression of `new` (`src/lib.rs` lines 126-128), on the
parsed version triple. -/
def hasCheckOf (v_major v_minor v_patch : Int) : Bool :=
  decide (1 < v_major) ||
    (decide (v_major = 1) && decide (4 < v_minor)) ||
    (decide (v_major = 1) && decide (v_minor = 4) && decide (10 < v_patch))

/-- The `has_wait` expression of `new` (`src/lib.rs` lines 129-131). -/
def hasWaitOf (v_major v_minor v_patch : Int) : Bool :=
  decide (1 < v_major) ||
    (decide (v_major = 1) && decide (4 < v_minor)) ||
    (decide (v_major = 1) && decide (v_minor = 4) && decide (19 < v_patch))

/-- The handle `new` builds (`src/lib.rs` lines 99-133) once the version
triple has been parsed from the `--version` output. -/
def newHandle (is_ipv6 : Bool) (v_major v_minor v_patch : Int) : IPTables :=
  ⟨if is_ipv6 then "ip6tables" else "iptables",
    hasCheckOf v_major v_minor v_patch, hasWaitOf v_major v_minor v_patch⟩

/-- Strict lexicographic order on version triples, the order the spec's
thresholds refer to. -/
def versionLexGT (vM vm vp a b c : Int) : Prop :=
  a < vM ∨ (a = vM ∧ (b < vm ∨ (b = vm ∧ c < vp)))

/-- `BUILTIN_CHAINS_FILTER` (`src/lib.rs` line 38). -/
def BUILTIN_CHAINS_FILTER : List String := ["INPUT", "FORWARD", "OUTPUT"]

/-- `BUILTIN_CHAINS_MANGLE` (`src/lib.rs` lines 39-40). -/
def BUILTIN_CHAINS_MANGLE : List String :=
  ["PREROUTING", "OUTPUT", "INPUT", "FORWARD", "POSTROUTING"]

/-- `BUILTIN_CHAINS_NAT` (`src/lib.rs` line 41). -/
def BUILTIN_CHAINS_NAT : List String := ["PREROUTING", "POSTROUTING", "OUTPUT"]

/-- `BUILTIN_CHAINS_RAW` (`src/lib.rs` line 42). -/
def BUILTIN_CHAINS_RAW : List String := ["PREROUTING", "OUTPUT"]

/-- `BUILTIN_CHAINS_SECURITY` (`src/lib.rs` line 43). -/
def BUILTIN_CHAINS_SECURITY : List String := ["INPUT", "OUTPUT", "FORWARD"]

/-- `get_builtin_chains` (`src/lib.rs` lines 67-76): a static map from the
five supported table names to their builtin chains. -/
def get_builtin_chains (table : String) : IPTResult (List String) :=
  if table = "filter" then IPTResult.ok BUILTIN_CHAINS_FILTER
  else if table = "mangle" then IPTResult.ok BUILTIN_CHAINS_MANGLE
  else if table = "nat" then IPTResult.ok BUILTIN_CHAINS_NAT
  else if table = "raw" then IPTResult.ok BUILTIN_CHAINS_RAW
  else if table = "security" then IPTResult.ok BUILTIN_CHAINS_SECURITY
  else IPTResult.error (IPTError.Other "given table is not supported by iptables")

/-- Split a character list at every occurrence of `sep`, keeping empty
pieces, like `str::split` with a one-character pattern. -/
def splitOnCharGo (sep : Char) (acc : List Char) : List Char → List (List Char)
  | [] => [acc.reverse]
  | c :: rest =>
    if c = sep then acc.reverse :: splitOnCharGo sep [] rest
    else splitOnCharGo sep (c :: acc) rest

/-- `str::split(sep)` on character lists. -/
def splitOnChar (sep : Char) (l : List Char) : List (List Char) := splitOnCharGo sep [] l

/-- ASCII whitespace, the relevant fragment of `str::trim`. -/
def isWsChar (c : Char) : Bool := c = ' ' || c = Char.ofNat 9 || c = Char.ofNat 10 || c = Char.ofNat 13

/-- `str::trim` on character lists (ASCII whitespace). -/
def trimChars (l : List Char) : List Char :=
  ((l.dropWhile isWsChar).reverse.dropWhile isWsChar).reverse

/-- Whether the first character list is a prefix of the second. -/
def prefixChars : List Char → List Char → Bool
  | [], _ => true
  | _ :: _, [] => false
  | a :: as, b :: bs => a = b && prefixChars as bs

/-- Whether `needle` occurs as a contiguous sublist of `hay`. -/
def infixChars (needle hay : List Char) : Bool :=
  match hay with
  | [] => prefixChars needle []
  | _ :: rest => prefixChars needle hay || infixChars needle rest

/-- `String::contains(needle)` as substring search. -/
def strContains (hay needle : String) : Bool := infixChars needle.data hay.data

/-- Outcome of the line scan of `get_policy`: either it returns an
`IPTResult`, or it panics (out-of-bounds indexing). -/
inductive GetPolicyOutcome where
  | panics
  | returns (r : IPTResult String)
deriving DecidableEq

/-- The literal `"Chain"` compared against the first field. -/
def chainHeader : List Char := ['C', 'h', 'a', 'i', 'n']

/-- The line scan of `get_policy` (`src/lib.rs` lines 147-155): split each
line on single spaces; on a line whose first field is `Chain` and whose
second field is the chain name — only `fields.len() > 1` is checked — read
`fields[3]` and strip closing parentheses from it.  When such a line has
fewer than four fields the indexing panics. -/
def scanPolicyLines (chain : List Char) : List (List Char) → GetPolicyOutcome
  | [] => GetPolicyOutcome.returns
      (IPTResult.error (IPTError.Other "could not find the default policy for table and chain"))
  | line :: rest =>
    match splitOnChar ' ' line with
    | f0 :: f1 :: restf =>
      if f0 = chainHeader ∧ f1 = chain then
        match restf[1]? with
        | some f3 => GetPolicyOutcome.returns (IPTResult.ok (String.mk (f3.filter (fun c => c != ')'))))
        | none => GetPolicyOutcome.panics
      else scanPolicyLines chain rest
    | _ => scanPolicyLines chain rest

/-- `get_policy` (`src/lib.rs` lines 137-156): validate the chain against the
static builtin map before any invocation, then run `-t table -L chain` and
scan the trimmed output lines. -/
def getPolicy (ipt : IPTables) (table chain : String) (env : RunEnv) :
    Option (GetPolicyOutcome × List Event) :=
  match get_builtin_chains table with
  | IPTResult.error e => some (GetPolicyOutcome.returns (IPTResult.error e), [])
  | IPTResult.ok bc =>
    if chain ∈ bc then
      match run ipt ["-t", table, "-L", chain] env with
      | none => none
      | some (IPTResult.error e, tr) => some (GetPolicyOutcome.returns (IPTResult.error e), tr)
      | some (IPTResult.ok out, tr) =>
          some (scanPolicyLines chain.data
            (splitOnChar (Char.ofNat 10) (trimChars out.stdout.data)), tr)
    else
      some (GetPolicyOutcome.returns (IPTResult.error
        (IPTError.Other "given chain is not a default chain in the given table, can not get policy")), [])

/-- `set_policy` (`src/lib.rs` lines 159-171): same builtin-chain guard, then
`-t table -P chain policy`. -/
def setPolicy (ipt : IPTables) (table chain policy : String) (env : RunEnv) :
    Option (IPTResult Unit × List Event) :=
  match get_builtin_chains table with
  | IPTResult.error e => some (IPTResult.error e, [])
  | IPTResult.ok bc =>
    if chain ∈ bc then
      match run ipt ["-t", table, "-P", chain, policy] env with
      | none => none
      | some (IPTResult.ok _, tr) => some (IPTResult.ok (), tr)
      | some (IPTResult.error e, tr) => some (IPTResult.error e, tr)
    else
      some (IPTResult.error
        (IPTError.Other "given chain is not a default chain in the given table, can not set policy"), [])

/-- `exists_old_version` (`src/lib.rs` lines 367-374): run `-t table -S` and
substring-match `-A <chain> <rule>` (the raw rule string) against stdout. -/
def existsOldVersion (ipt : IPTables) (table chain rule : String) (env : RunEnv) :
    Option (IPTResult Bool × List Event) :=
  match run ipt ["-t", table, "-S"] env with
  | none => none
  | some (IPTResult.ok out, tr) =>
      some (IPTResult.ok (strContains out.stdout ("-A " ++ chain ++ " " ++ rule)), tr)
  | some (IPTResult.error e, tr) => some (IPTResult.error e, tr)

/-- The match on the check invocation's result inside `exists` (`src/lib.rs`
lines 187-192), with its arms in source order: `Ok(_)` gives `Ok(true)`,
`Err(BadExitStatus(1))` and `Err(BadExitStatus(2))` give `Ok(false)`, and any
other error is forwarded unchanged. -/
def checkResultMap (r0 : IPTResult Output) : IPTResult Bool :=
  match r0 with
  | IPTResult.ok _ => IPTResult.ok true
  | IPTResult.error e =>
    if e = IPTError.BadExitStatus 1 then IPTResult.ok false
    else if e = IPTError.BadExitStatus 2 then IPTResult.ok false
    else IPTResult.error e

/-- `exists` (`src/lib.rs` lines 182-193): without `has_check` fall back to
`exists_old_version`; with it run `-t table -C chain <tokenized rule>` and
map the result through `checkResultMap`. -/
def existsFn (ipt : IPTables) (table chain rule : String) (env : RunEnv) :
    Option (IPTResult Bool × List Event) :=
  if ipt.has_check = false then existsOldVersion ipt table chain rule env
  else
    match run ipt (["-t", table, "-C", chain] ++ split_quoted rule) env with
    | none => none
    | some (r0, tr) => some (checkResultMap r0, tr)

/-- Whether an event is a process spawn. -/
def isSpawnEv : Event → Bool
  | Event.spawn _ => true
  | _ => false

/-- `delete` (`src/lib.rs` lines 283-288): run `-t table -D chain
<tokenized rule>` and forward the result. -/
def deleteFn (ipt : IPTables) (table chain rule : String) (env : RunEnv) :
    Option (IPTResult Unit × List Event) :=
  match run ipt (["-t", table, "-D", chain] ++ split_quoted rule) env with
  | none => none
  | some (IPTResult.ok _, tr) => some (IPTResult.ok (), tr)
  | some (IPTResult.error e, tr) => some (IPTResult.error e, tr)

/-- `delete_all` (`src/lib.rs` lines 292-297): `while exists? { delete?; };
Ok(true)`.  The environment stream gives one `RunEnv` per successive external
invocation; the second `Nat` bounds the number of loop iterations that may be
unfolded, and `none` means the bound was reached without terminating — with
`none` for every bound, the loop does not terminate. -/
def deleteAll (ipt : IPTables) (table chain rule : String) (envs : Nat → RunEnv) :
    Nat → Nat → Option (IPTResult Bool)
  | _, 0 => none
  | k, Nat.succ fuel =>
    match existsFn ipt table chain rule (envs k) with
    | none => none
    | some (IPTResult.error e, _) => some (IPTResult.error e)
    | some (IPTResult.ok false, _) => some (IPTResult.ok true)
    | some (IPTResult.ok true, _) =>
      match deleteFn ipt table chain rule (envs (k + 1)) with
      | none => none
      | some (IPTResult.error e, _) => some (IPTResult.error e)
      | some (IPTResult.ok _, _) => deleteAll ipt table chain rule envs (k + 2) fuel

theorem flockLoop_spec : ∀ seq r evs, flockLoop seq = some (r, evs) →
    ∃ k, (∀ i, i < k → seq[i]? = some (some EAGAIN)) ∧
      ((r = FlockOut.acquired ∧ evs = List.replicate k Event.flockRetry ++ [Event.flockOk] ∧
          seq[k]? = some none) ∨
       (∃ e, e ≠ EAGAIN ∧ r = FlockOut.fatal e ∧
          evs = List.replicate k Event.flockRetry ++ [Event.flockFail e] ∧
          seq[k]? = some (some e))) := by
  intro seq
  induction seq with
  | nil => intro r evs h; simp [flockLoop] at h
  | cons o rest ih =>
    intro r evs h
    match o with
    | none =>
      refine ⟨0, by omega, Or.inl ?_⟩
      simp [flockLoop] at h
      simp [h.1.symm, h.2.symm]
    | some e =>
      by_cases he : e = EAGAIN
      · subst he
        simp [flockLoop] at h
        rcases hrec : flockLoop rest with _ | ⟨r', evs'⟩
        · rw [hrec] at h; simp at h
        · rw [hrec] at h; simp at h
          obtain ⟨hr, hevs⟩ := h
          obtain ⟨k, hk, hcase⟩ := ih r' evs' hrec
          refine ⟨k + 1, ?_, ?_⟩
          · intro i hi
            match i with
            | 0 => simp
            | Nat.succ j => simpa using hk j (by omega)
          · rcases hcase with ⟨h1, h2, h3⟩ | ⟨e', h1, h2, h3, h4⟩
            · exact Or.inl ⟨hr ▸ h1, by simp [hevs.symm, h2, List.replicate_succ], by simpa using h3⟩
            · exact Or.inr ⟨e', h1, hr ▸ h2, by simp [hevs.symm, h3, List.replicate_succ], by simpa using h4⟩
      · simp [flockLoop, he] at h
        refine ⟨0, by omega, Or.inr ⟨e, he, ?_, ?_, ?_⟩⟩
        · exact h.1.symm
        · simp [h.2.symm]
        · simp

/-- Complete case characterization of `run` on terminating executions:
with `has_wait` the trace is a single spawn with `--wait` appended and the
result reflects the spawn outcome; without it, either lock-file creation
fails (empty trace), or the flock loop fails fatally, or the lock is
acquired, the process spawned with unmodified arguments, and the file
closed last. -/
theorem run_cases : ∀ ipt args env res tr, run ipt args env = some (res, tr) →
    (ipt.has_wait = true ∧ tr = [Event.spawn (args ++ ["--wait"])] ∧
       ((∃ k, env.spawnResult = SpawnOutcome.ioError k ∧ res = IPTResult.error (IPTError.IoErr k)) ∨
        (∃ out, env.spawnResult = SpawnOutcome.success out ∧ res = exitToResult out))) ∨
    (ipt.has_wait = false ∧
       ((∃ k, env.createResult = some k ∧ tr = [] ∧ res = IPTResult.error (IPTError.IoErr k)) ∨
        (env.createResult = none ∧
          ((∃ e evs, flockLoop env.flockSeq = some (FlockOut.fatal e, evs) ∧
              tr = Event.lockCreated :: evs ++ [Event.lockClosed] ∧
              res = IPTResult.error (IPTError.Nix e)) ∨
           (∃ evs, flockLoop env.flockSeq = some (FlockOut.acquired, evs) ∧
              tr = Event.lockCreated :: evs ++ [Event.spawn args, Event.lockClosed] ∧
              ((∃ k, env.spawnResult = SpawnOutcome.ioError k ∧
                  res = IPTResult.error (IPTError.IoErr k)) ∨
               (∃ out, env.spawnResult = SpawnOutcome.success out ∧
                  res = exitToResult out))))))) := by
  intro ipt args env res tr h
  cases hw : ipt.has_wait with
  | true =>
    left
    refine ⟨rfl, ?_⟩
    simp only [run, hw] at h
    cases hs : env.spawnResult with
    | ioError k =>
      rw [hs] at h
      simp only [if_true, Option.some.injEq, Prod.mk.injEq] at h
      exact ⟨h.2.symm, Or.inl ⟨k, rfl, h.1.symm⟩⟩
    | success out =>
      rw [hs] at h
      simp only [if_true, Option.some.injEq, Prod.mk.injEq] at h
      exact ⟨h.2.symm, Or.inr ⟨out, rfl, h.1.symm⟩⟩
  | false =>
    right
    refine ⟨rfl, ?_⟩
    simp only [run, hw, Bool.false_eq_true, if_false] at h
    cases hc : env.createResult with
    | some k =>
      rw [hc] at h
      simp only [Option.some.injEq, Prod.mk.injEq] at h
      exact Or.inl ⟨k, rfl, h.2.symm, h.1.symm⟩
    | none =>
      rw [hc] at h
      refine Or.inr ⟨rfl, ?_⟩
      cases hf : flockLoop env.flockSeq with
      | none => rw [hf] at h; simp at h
      | some p =>
        rw [hf] at h
        match p with
        | (FlockOut.fatal e, evs) =>
          simp only [Option.some.injEq, Prod.mk.injEq] at h
          exact Or.inl ⟨e, evs, rfl, h.2.symm, h.1.symm⟩
        | (FlockOut.acquired, evs) =>
          cases hs : env.spawnResult with
          | ioError k =>
            rw [hs] at h
            simp only [Option.some.injEq, Prod.mk.injEq] at h
            exact Or.inr ⟨evs, rfl, h.2.symm, Or.inl ⟨k, rfl, h.1.symm⟩⟩
          | success out =>
            rw [hs] at h
            simp only [Option.some.injEq, Prod.mk.injEq] at h
            exact Or.inr ⟨evs, rfl, h.2.symm, Or.inr ⟨out, rfl, h.1.symm⟩⟩

/-- The wait threshold implies the check threshold on the boolean capability
expressions of `new`. -/
theorem waitImpliesCheck : ∀ vM vm vp : Int,
    hasWaitOf vM vm vp = true → hasCheckOf vM vm vp = true := by
  intro vM vm vp h
  simp only [hasWaitOf, Bool.or_eq_true, Bool.and_eq_true, decide_eq_true_eq] at h
  simp only [hasCheckOf, Bool.or_eq_true, Bool.and_eq_true, decide_eq_true_eq]
  omega

/-- C1: the handle built by `new` has `has_check` true exactly when the
parsed version triple is lexicographically above `1.4.10` and `has_wait`
true exactly when it is above `1.4.19`; the four example versions from the
spec evaluate as stated. -/
theorem C1_version_thresholds :
    (∀ vM vm vp : Int,
      ((newHandle false vM vm vp).has_check = true ↔ versionLexGT vM vm vp 1 4 10) ∧
      ((newHandle false vM vm vp).has_wait = true ↔ versionLexGT vM vm vp 1 4 19)) ∧
    ((newHandle false 1 4 10).has_check = false ∧ (newHandle false 1 4 10).has_wait = false) ∧
    ((newHandle false 1 4 11).has_check = true ∧ (newHandle false 1 4 11).has_wait = false) ∧
    ((newHandle false 1 4 20).has_check = true ∧ (newHandle false 1 4 20).has_wait = true) ∧
    ((newHandle false 2 0 0).has_check = true ∧ (newHandle false 2 0 0).has_wait = true) := by
  refine ⟨fun vM vm vp => ⟨?_, ?_⟩, by decide, by decide, by decide, by decide⟩ <;>
  · simp only [newHandle, hasCheckOf, hasWaitOf, versionLexGT, Bool.or_eq_true,
      Bool.and_eq_true, decide_eq_true_eq]
    omega

/-- C9: every handle built by `new` satisfies `has_wait → has_check`, so a
handle without atomic check also lacks built-in wait; consequently every
`run` such a handle performs takes the file-lock branch: the spawned
arguments are unmodified (no `--wait`) and the flock acquisition precedes
the spawn in the trace. -/
theorem C9_wait_implies_check : ∀ vM vm vp : Int,
    ((newHandle false vM vm vp).has_wait = true → (newHandle false vM vm vp).has_check = true) ∧
    ((newHandle false vM vm vp).has_check = false →
      ∀ args env res tr, run (newHandle false vM vm vp) args env = some (res, tr) →
        ∀ a, Event.spawn a ∈ tr → a = args ∧ Event.flockOk ∈ tr) := by
  intro vM vm vp
  constructor
  · exact waitImpliesCheck vM vm vp
  · intro hc args env res tr hrun a ha
    have hwF : (newHandle false vM vm vp).has_wait = false := by
      cases hb : (newHandle false vM vm vp).has_wait with
      | false => rfl
      | true =>
        exact absurd (waitImpliesCheck vM vm vp hb) (by simp [newHandle] at hc ⊢; exact hc)
    rcases run_cases _ _ _ _ _ hrun with ⟨hw, _⟩ | ⟨_, hcase⟩
    · rw [hwF] at hw; exact absurd hw (by simp)
    · rcases hcase with ⟨k, _, htr, _⟩ | ⟨_, ⟨e, evs, hfl, htr, _⟩ | ⟨evs, hfl, htr, _⟩⟩
      · subst htr; simp at ha
      · subst htr
        obtain ⟨kk, _, hsh⟩ := flockLoop_spec _ _ _ hfl
        rcases hsh with ⟨_, hevs, _⟩ | ⟨e', _, _, hevs, _⟩ <;>
        · subst hevs
          simp [List.mem_replicate] at ha
      · subst htr
        obtain ⟨kk, _, hsh⟩ := flockLoop_spec _ _ _ hfl
        rcases hsh with ⟨_, hevs, _⟩ | ⟨e', _, hfo, _, _⟩
        · subst hevs
          simp [List.mem_append, List.mem_replicate] at ha
          refine ⟨ha, ?_⟩
          simp [List.mem_append, List.mem_replicate]
        · exact absurd hfo (by simp)

/-- C9 witness: the concrete version 1.4.5 has neither capability, and a
concrete `run` of that handle spawns with unmodified arguments after a
successful flock acquisition. -/
theorem C9_wait_implies_check_witness :
    (newHandle false 1 4 5).has_check = false ∧
    run (newHandle false 1 4 5) ["-L"] ⟨SpawnOutcome.success ⟨"", some 0⟩, none, [none]⟩ =
      some (IPTResult.ok ⟨"", some 0⟩,
        [Event.lockCreated, Event.flockOk, Event.spawn ["-L"], Event.lockClosed]) ∧
    (["-L"] = ["-L"] ∧ Event.flockOk ∈
      [Event.lockCreated, Event.flockOk, Event.spawn ["-L"], Event.lockClosed]) := by
  refine ⟨by decide, by decide, ?_⟩
  exact (C9_wait_implies_check 1 4 5).2 (by decide) ["-L"]
    ⟨SpawnOutcome.success ⟨"", some 0⟩, none, [none]⟩ (IPTResult.ok ⟨"", some 0⟩)
    [Event.lockCreated, Event.flockOk, Event.spawn ["-L"], Event.lockClosed]
    (by decide) ["-L"] (by decide)

/-- Exit status mapping, success side. -/
theorem exitToResult_ok : ∀ out : Output,
    (out.code = none ∨ out.code = some 0) → exitToResult out = IPTResult.ok out := by
  intro out h
  rcases h with h | h <;> simp [exitToResult, h]

/-- Exit status mapping, failure side. -/
theorem exitToResult_bad : ∀ (out : Output) (i : Int), out.code = some i → i ≠ 0 →
    exitToResult out = IPTResult.error (IPTError.BadExitStatus i) := by
  intro out i h hi
  simp [exitToResult, h, hi]

/-- The flock loop spawns nothing. -/
theorem flockLoop_no_spawn : ∀ seq fo evs, flockLoop seq = some (fo, evs) →
    ∀ a, Event.spawn a ∉ evs := by
  intro seq fo evs h a
  obtain ⟨k, _, hsh⟩ := flockLoop_spec _ _ _ h
  rcases hsh with ⟨_, hevs, _⟩ | ⟨e, _, _, hevs, _⟩ <;> subst hevs <;>
    simp [List.mem_append, List.mem_replicate]

/-- Spawn events are filtered out of retry-event runs. -/
theorem filterSpawn_replicate : ∀ k, (List.replicate k Event.flockRetry).filter isSpawnEv = [] := by
  intro k
  induction k with
  | zero => rfl
  | succ n ih => simp [List.replicate_succ, List.filter_cons, isSpawnEv, ih]

/-- C3: when `run` terminates and actually spawned the child, the captured
output is returned exactly on exit code 0 or on a missing exit code, any
nonzero exit code `i` becomes `BadExitStatus i`, and a spawn failure becomes
an `Io`-kind error immediately, with exactly one spawn attempt (no retry). -/
theorem C3_run_exit_mapping : ∀ ipt args env res tr,
    run ipt args env = some (res, tr) → (∃ a, Event.spawn a ∈ tr) →
    (∀ out, env.spawnResult = SpawnOutcome.success out →
       ((out.code = none ∨ out.code = some 0) → res = IPTResult.ok out) ∧
       (∀ i, out.code = some i → i ≠ 0 → res = IPTResult.error (IPTError.BadExitStatus i))) ∧
    (∀ k, env.spawnResult = SpawnOutcome.ioError k →
       res = IPTResult.error (IPTError.IoErr k) ∧ (tr.filter isSpawnEv).length = 1) := by
  intro ipt args env res tr h hspawn
  rcases run_cases _ _ _ _ _ h with ⟨_, htr, hout⟩ | ⟨_, hcase⟩
  · subst htr
    constructor
    · intro out hs
      rcases hout with ⟨k, hk, hres⟩ | ⟨out', hout', hres⟩
      · rw [hs] at hk; simp at hk
      · rw [hs] at hout'
        injection hout' with he
        subst he
        subst hres
        exact ⟨exitToResult_ok out, fun i hi hne => exitToResult_bad out i hi hne⟩
    · intro k hs
      rcases hout with ⟨k', hk, hres⟩ | ⟨out', hout', hres⟩
      · rw [hs] at hk
        injection hk with he
        subst he
        subst hres
        exact ⟨rfl, by simp [List.filter_cons, isSpawnEv]⟩
      · rw [hs] at hout'; simp at hout'
  · rcases hcase with ⟨k, _, htr, _⟩ | ⟨_, ⟨e, evs, hfl, htr, _⟩ | ⟨evs, hfl, htr, hout⟩⟩
    · subst htr; simp at hspawn
    · subst htr
      obtain ⟨a, ha⟩ := hspawn
      have hsplit : Event.spawn a ∈ evs ∨ Event.spawn a = Event.lockCreated ∨
          Event.spawn a = Event.lockClosed := by
        simp only [List.mem_cons, List.mem_append, List.mem_singleton] at ha
        tauto
      rcases hsplit with h1 | h1 | h1
      · exact absurd h1 (flockLoop_no_spawn _ _ _ hfl a)
      · exact Event.noConfusion h1
      · exact Event.noConfusion h1
    · subst htr
      have hnosp := flockLoop_no_spawn _ _ _ hfl
      have hfiltered : ((Event.lockCreated :: (evs ++ [Event.spawn args, Event.lockClosed])).filter isSpawnEv).length = 1 := by
        obtain ⟨kk, _, hsh⟩ := flockLoop_spec _ _ _ hfl
        rcases hsh with ⟨_, hevs, _⟩ | ⟨e', _, hfo, _, _⟩
        · subst hevs
          simp [List.filter_cons, List.filter_append, isSpawnEv, filterSpawn_replicate]
        · simp at hfo
      constructor
      · intro out hs
        rcases hout with ⟨k, hk, hres⟩ | ⟨out', hout', hres⟩
        · rw [hs] at hk; simp at hk
        · rw [hs] at hout'
          injection hout' with he
          subst he
          subst hres
          exact ⟨exitToResult_ok out, fun i hi hne => exitToResult_bad out i hi hne⟩
      · intro k hs
        rcases hout with ⟨k', hk, hres⟩ | ⟨out', hout', hres⟩
        · rw [hs] at hk
          injection hk with he
          subst he
          subst hres
          exact ⟨rfl, hfiltered⟩
        · rw [hs] at hout'; simp at hout'

/-- C3 witness: a concrete call with exit code 3 maps to `BadExitStatus 3`,
and a concrete spawn failure of kind 5 maps to an `Io`-kind error with a
single spawn attempt. -/
theorem C3_run_exit_mapping_witness :
    run ⟨"iptables", true, true⟩ ["-L"] ⟨SpawnOutcome.success ⟨"", some 3⟩, none, []⟩ =
      some (IPTResult.error (IPTError.BadExitStatus 3), [Event.spawn ["-L", "--wait"]]) ∧
    (IPTResult.error (IPTError.BadExitStatus 3) : IPTResult Output) =
      IPTResult.error (IPTError.BadExitStatus (3 : Int)) ∧
    run ⟨"iptables", true, true⟩ ["-L"] ⟨SpawnOutcome.ioError 5, none, []⟩ =
      some (IPTResult.error (IPTError.IoErr 5), [Event.spawn ["-L", "--wait"]]) ∧
    ([Event.spawn ["-L", "--wait"]].filter isSpawnEv).length = 1 := by
  refine ⟨by decide, ?_, by decide, ?_⟩
  · exact ((C3_run_exit_mapping ⟨"iptables", true, true⟩ ["-L"]
      ⟨SpawnOutcome.success ⟨"", some 3⟩, none, []⟩
      (IPTResult.error (IPTError.BadExitStatus 3)) [Event.spawn ["-L", "--wait"]]
      (by decide) ⟨["-L", "--wait"], by decide⟩).1 ⟨"", some 3⟩ rfl).2 3 rfl (by decide)
  · exact ((C3_run_exit_mapping ⟨"iptables", true, true⟩ ["-L"]
      ⟨SpawnOutcome.ioError 5, none, []⟩
      (IPTResult.error (IPTError.IoErr 5)) [Event.spawn ["-L", "--wait"]]
      (by decide) ⟨["-L", "--wait"], by decide⟩).2 5 rfl).2

/-- C4: with `has_wait` the only event is one spawn with the wait flag
appended (the lock file is neither opened nor locked); without it, whenever
the child was spawned the trace is exactly lock-file creation, `k` retries
each caused by an `EAGAIN` answer, a successful acquisition, the spawn with
unmodified arguments, and the close of the lock file; a non-`EAGAIN` flock
failure is fatal (`Nix` error); and on every path that opened the lock file
its close is the last event before returning.  The two strategies are never
combined: the wait-mode trace contains no lock event. -/
theorem C4_locking_discipline : ∀ ipt args env res tr,
    run ipt args env = some (res, tr) →
    (ipt.has_wait = true → tr = [Event.spawn (args ++ ["--wait"])]) ∧
    (ipt.has_wait = false →
      ((∃ a, Event.spawn a ∈ tr) →
        ∃ k, tr = Event.lockCreated :: (List.replicate k Event.flockRetry ++
               [Event.flockOk, Event.spawn args, Event.lockClosed]) ∧
          (∀ i, i < k → env.flockSeq[i]? = some (some EAGAIN)) ∧
          env.flockSeq[k]? = some none) ∧
      (∀ e, Event.flockFail e ∈ tr → e ≠ EAGAIN ∧ res = IPTResult.error (IPTError.Nix e)) ∧
      (Event.lockCreated ∈ tr → ∃ pre, tr = pre ++ [Event.lockClosed])) := by
  intro ipt args env res tr h
  rcases run_cases _ _ _ _ _ h with ⟨hwT, htr, _⟩ | ⟨hwF, hcase⟩
  · subst htr
    refine ⟨fun _ => rfl, fun hwF => ?_⟩
    rw [hwT] at hwF
    exact Bool.noConfusion hwF
  · refine ⟨fun hwT => ?_, fun _ => ?_⟩
    · rw [hwF] at hwT
      exact Bool.noConfusion hwT
    · rcases hcase with ⟨k, _, htr, _⟩ | ⟨_, ⟨e, evs, hfl, htr, hres⟩ | ⟨evs, hfl, htr, _⟩⟩
      · subst htr
        exact ⟨fun ⟨a, ha⟩ => absurd ha (by simp), fun e he => absurd he (by simp),
          fun hc => absurd hc (by simp)⟩
      · subst htr
        obtain ⟨kk, hEAG, hsh⟩ := flockLoop_spec _ _ _ hfl
        rcases hsh with ⟨hfo, _, _⟩ | ⟨e', heq, hfo, hevs, _⟩
        · exact absurd hfo (by simp)
        · injection hfo with he'
          subst he'
          subst hevs
          refine ⟨fun ⟨a, ha⟩ => ?_, fun e0 he0 => ?_, fun _ => ?_⟩
          · exfalso
            have hsplit : Event.spawn a ∈ List.replicate kk Event.flockRetry ∨
                Event.spawn a = Event.flockFail e ∨
                Event.spawn a = Event.lockCreated ∨ Event.spawn a = Event.lockClosed := by
              simp only [List.mem_cons, List.mem_append, List.mem_singleton] at ha
              tauto
            rcases hsplit with h1 | h1 | h1 | h1
            · exact absurd (List.eq_of_mem_replicate h1) (by simp)
            · exact Event.noConfusion h1
            · exact Event.noConfusion h1
            · exact Event.noConfusion h1
          · have hsplit : Event.flockFail e0 ∈ List.replicate kk Event.flockRetry ∨
                Event.flockFail e0 = Event.flockFail e ∨
                Event.flockFail e0 = Event.lockCreated ∨
                Event.flockFail e0 = Event.lockClosed := by
              simp only [List.mem_cons, List.mem_append, List.mem_singleton] at he0
              tauto
            rcases hsplit with h1 | h1 | h1 | h1
            · exact absurd (List.eq_of_mem_replicate h1) (by simp)
            · injection h1 with he0'
              subst he0'
              exact ⟨heq, hres⟩
            · exact Event.noConfusion h1
            · exact Event.noConfusion h1
          · exact ⟨Event.lockCreated :: (List.replicate kk Event.flockRetry ++ [Event.flockFail e]),
              by simp⟩
      · subst htr
        obtain ⟨kk, hEAG, hsh⟩ := flockLoop_spec _ _ _ hfl
        rcases hsh with ⟨_, hevs, hknone⟩ | ⟨e', _, hfo, _, _⟩
        · subst hevs
          refine ⟨fun _ => ⟨kk, by simp, hEAG, hknone⟩, fun e0 he0 => ?_, fun _ => ?_⟩
          · exfalso
            have hsplit : Event.flockFail e0 ∈ List.replicate kk Event.flockRetry ∨
                Event.flockFail e0 = Event.flockOk ∨
                Event.flockFail e0 = Event.lockCreated ∨
                Event.flockFail e0 = Event.spawn args ∨
                Event.flockFail e0 = Event.lockClosed := by
              simp only [List.mem_cons, List.mem_append, List.mem_singleton] at he0
              tauto
            rcases hsplit with h1 | h1 | h1 | h1 | h1
            · exact absurd (List.eq_of_mem_replicate h1) (by simp)
            · exact Event.noConfusion h1
            · exact Event.noConfusion h1
            · exact Event.noConfusion h1
            · exact Event.noConfusion h1
          · exact ⟨Event.lockCreated :: ((List.replicate kk Event.flockRetry ++ [Event.flockOk]) ++
              [Event.spawn args]), by simp⟩
        · exact absurd hfo (by simp)

/-- C4 witness: a concrete no-wait call whose first flock attempt answers
`EAGAIN` and whose second succeeds produces exactly the created-retry-
acquired-spawn-closed trace. -/
theorem C4_locking_discipline_witness :
    run ⟨"iptables", true, false⟩ ["-L"]
      ⟨SpawnOutcome.success ⟨"", some 0⟩, none, [some EAGAIN, none]⟩ =
      some (IPTResult.ok ⟨"", some 0⟩,
        [Event.lockCreated, Event.flockRetry, Event.flockOk, Event.spawn ["-L"],
         Event.lockClosed]) ∧
    (∃ k, [Event.lockCreated, Event.flockRetry, Event.flockOk, Event.spawn ["-L"],
         Event.lockClosed] = Event.lockCreated :: (List.replicate k Event.flockRetry ++
           [Event.flockOk, Event.spawn ["-L"], Event.lockClosed]) ∧
      (∀ i, i < k → ([some EAGAIN, none] : List (Option Int))[i]? = some (some EAGAIN)) ∧
      ([some EAGAIN, none] : List (Option Int))[k]? = some none) := by
  refine ⟨by decide, ?_⟩
  exact ((C4_locking_discipline ⟨"iptables", true, false⟩ ["-L"]
    ⟨SpawnOutcome.success ⟨"", some 0⟩, none, [some EAGAIN, none]⟩
    (IPTResult.ok ⟨"", some 0⟩)
    [Event.lockCreated, Event.flockRetry, Event.flockOk, Event.spawn ["-L"], Event.lockClosed]
    (by decide)).2 rfl).1 ⟨["-L"], by decide⟩

/-- Every spawn event of a `run` carries either the given arguments verbatim
(file-lock branch) or the given arguments with `--wait` appended. -/
theorem run_spawn_args : ∀ ipt args env res tr, run ipt args env = some (res, tr) →
    ∀ a, Event.spawn a ∈ tr → a = args ∨ a = args ++ ["--wait"] := by
  intro ipt args env res tr h a ha
  rcases run_cases _ _ _ _ _ h with ⟨_, htr, _⟩ | ⟨_, hcase⟩
  · subst htr
    have := List.mem_singleton.mp ha
    injection this with he
    exact Or.inr he
  · rcases hcase with ⟨k, _, htr, _⟩ | ⟨_, ⟨e, evs, hfl, htr, _⟩ | ⟨evs, hfl, htr, _⟩⟩
    · subst htr; simp at ha
    · subst htr
      exfalso
      have hsplit : Event.spawn a ∈ evs ∨ Event.spawn a = Event.lockCreated ∨
          Event.spawn a = Event.lockClosed := by
        simp only [List.mem_cons, List.mem_append, List.mem_singleton] at ha
        tauto
      rcases hsplit with h1 | h1 | h1
      · exact absurd h1 (flockLoop_no_spawn _ _ _ hfl a)
      · exact Event.noConfusion h1
      · exact Event.noConfusion h1
    · subst htr
      have hsplit : Event.spawn a ∈ evs ∨ Event.spawn a = Event.lockCreated ∨
          Event.spawn a = Event.spawn args ∨ Event.spawn a = Event.lockClosed := by
        simp only [List.mem_cons, List.mem_append, List.mem_singleton] at ha
        tauto
      rcases hsplit with h1 | h1 | h1 | h1
      · exact absurd h1 (flockLoop_no_spawn _ _ _ hfl a)
      · exact Event.noConfusion h1
      · injection h1 with he; exact Or.inl he
      · exact Event.noConfusion h1

/-- When a `run` terminated and actually spawned the child, the result is
determined by the spawn outcome through the exit-status mapping. -/
theorem run_result_spawned : ∀ ipt args env res tr, run ipt args env = some (res, tr) →
    (∃ a, Event.spawn a ∈ tr) →
    (∀ out, env.spawnResult = SpawnOutcome.success out → res = exitToResult out) ∧
    (∀ k, env.spawnResult = SpawnOutcome.ioError k →
      res = IPTResult.error (IPTError.IoErr k)) := by
  intro ipt args env res tr h hspawn
  rcases run_cases _ _ _ _ _ h with ⟨_, htr, hout⟩ | ⟨_, hcase⟩
  · constructor
    · intro out hs
      rcases hout with ⟨k, hk, hres⟩ | ⟨out', hout', hres⟩
      · rw [hs] at hk; simp at hk
      · rw [hs] at hout'
        injection hout' with he
        subst he
        exact hres
    · intro k hs
      rcases hout with ⟨k', hk, hres⟩ | ⟨out', hout', hres⟩
      · rw [hs] at hk
        injection hk with he
        subst he
        exact hres
      · rw [hs] at hout'; simp at hout'
  · rcases hcase with ⟨k, _, htr, _⟩ | ⟨_, ⟨e, evs, hfl, htr, _⟩ | ⟨evs, hfl, htr, hout⟩⟩
    · subst htr; simp at hspawn
    · subst htr
      exfalso
      obtain ⟨a, ha⟩ := hspawn
      have hsplit : Event.spawn a ∈ evs ∨ Event.spawn a = Event.lockCreated ∨
          Event.spawn a = Event.lockClosed := by
        simp only [List.mem_cons, List.mem_append, List.mem_singleton] at ha
        tauto
      rcases hsplit with h1 | h1 | h1
      · exact absurd h1 (flockLoop_no_spawn _ _ _ hfl a)
      · exact Event.noConfusion h1
      · exact Event.noConfusion h1
    · constructor
      · intro out hs
        rcases hout with ⟨k, hk, hres⟩ | ⟨out', hout', hres⟩
        · rw [hs] at hk; simp at hk
        · rw [hs] at hout'
          injection hout' with he
          subst he
          exact hres
      · intro k hs
        rcases hout with ⟨k', hk, hres⟩ | ⟨out', hout', hres⟩
        · rw [hs] at hk
          injection hk with he
          subst he
          exact hres
        · rw [hs] at hout'; simp at hout'

/-- Unfolding of `exists` on its atomic-check branch. -/
theorem existsFn_check_split : ∀ ipt table chain rule env res tr, ipt.has_check = true →
    existsFn ipt table chain rule env = some (res, tr) →
    ∃ r0, run ipt (["-t", table, "-C", chain] ++ split_quoted rule) env = some (r0, tr) ∧
      res = checkResultMap r0 := by
  intro ipt table chain rule env res tr hc h
  have hnc : ¬ ipt.has_check = false := by simp [hc]
  rw [existsFn, if_neg hnc] at h
  cases hrun : run ipt (["-t", table, "-C", chain] ++ split_quoted rule) env with
  | none => rw [hrun] at h; exact Option.noConfusion h
  | some p =>
    rw [hrun] at h
    obtain ⟨r0, tr0⟩ := p
    simp only [Option.some.injEq, Prod.mk.injEq] at h
    exact ⟨r0, by rw [h.2], h.1.symm⟩

/-- Unfolding of `exists_old_version`. -/
theorem existsOldVersion_split : ∀ ipt table chain rule env res tr,
    existsOldVersion ipt table chain rule env = some (res, tr) →
    ∃ r0, run ipt ["-t", table, "-S"] env = some (r0, tr) ∧
      ((∃ out, r0 = IPTResult.ok out ∧
         res = IPTResult.ok (strContains out.stdout ("-A " ++ chain ++ " " ++ rule))) ∨
       (∃ e, r0 = IPTResult.error e ∧ res = IPTResult.error e)) := by
  intro ipt table chain rule env res tr h
  rw [existsOldVersion] at h
  cases hrun : run ipt ["-t", table, "-S"] env with
  | none => rw [hrun] at h; exact Option.noConfusion h
  | some p =>
    rw [hrun] at h
    obtain ⟨r0, tr0⟩ := p
    cases r0 with
    | ok out =>
      simp only [Option.some.injEq, Prod.mk.injEq] at h
      exact ⟨IPTResult.ok out, by rw [h.2], Or.inl ⟨out, rfl, h.1.symm⟩⟩
    | error e =>
      simp only [Option.some.injEq, Prod.mk.injEq] at h
      exact ⟨IPTResult.error e, by rw [h.2], Or.inr ⟨e, rfl, h.1.symm⟩⟩

/-- The check-result mapping forwards errors other than exit statuses 1, 2. -/
theorem checkResultMap_other : ∀ e, e ≠ IPTError.BadExitStatus 1 →
    e ≠ IPTError.BadExitStatus 2 →
    checkResultMap (IPTResult.error e) = IPTResult.error e := by
  intro e h1 h2
  simp [checkResultMap, h1, h2]

/-- C5: with atomic check, `exists` spawns the check subcommand (its argument
vector is `-t table -C chain` plus the tokenized rule, possibly with the wait
flag), maps exit code 0 (or a missing code) to `Ok(true)`, exit codes 1 and 2
to `Ok(false)`, any other exit code to its unchanged `BadExitStatus`, and a
spawn failure to its unchanged `Io`-kind error. -/
theorem C5_exists_check_path : ∀ ipt table chain rule env res tr,
    ipt.has_check = true →
    existsFn ipt table chain rule env = some (res, tr) →
    (∀ a, Event.spawn a ∈ tr →
       (a = ["-t", table, "-C", chain] ++ split_quoted rule ∨
        a = (["-t", table, "-C", chain] ++ split_quoted rule) ++ ["--wait"])) ∧
    ((∃ a, Event.spawn a ∈ tr) →
      (∀ out, env.spawnResult = SpawnOutcome.success out →
        ((out.code = none ∨ out.code = some 0) → res = IPTResult.ok true) ∧
        ((out.code = some 1 ∨ out.code = some 2) → res = IPTResult.ok false) ∧
        (∀ i, out.code = some i → i ≠ 0 → i ≠ 1 → i ≠ 2 →
           res = IPTResult.error (IPTError.BadExitStatus i))) ∧
      (∀ k, env.spawnResult = SpawnOutcome.ioError k →
         res = IPTResult.error (IPTError.IoErr k))) := by
  intro ipt table chain rule env res tr hc h
  obtain ⟨r0, hrun, hres⟩ := existsFn_check_split _ _ _ _ _ _ _ hc h
  refine ⟨fun a ha => run_spawn_args _ _ _ _ _ hrun a ha, fun hsp => ?_⟩
  obtain ⟨hsucc, hio⟩ := run_result_spawned _ _ _ _ _ hrun hsp
  constructor
  · intro out hs
    have hr0 : r0 = exitToResult out := hsucc out hs
    refine ⟨?_, ?_, ?_⟩
    · intro hcode
      rw [hres, hr0, exitToResult_ok out hcode]
      rfl
    · intro hcode
      rcases hcode with hcode | hcode
      · rw [hres, hr0, exitToResult_bad out 1 hcode (by decide)]
        rfl
      · rw [hres, hr0, exitToResult_bad out 2 hcode (by decide)]
        rfl
    · intro i hcode h0 h1 h2
      rw [hres, hr0, exitToResult_bad out i hcode h0]
      rw [checkResultMap_other]
      · intro heq; injection heq with hi; exact h1 hi
      · intro heq; injection heq with hi; exact h2 hi
  · intro k hs
    rw [hres, hio k hs]
    rw [checkResultMap_other]
    · intro heq; exact IPTError.noConfusion heq
    · intro heq; exact IPTError.noConfusion heq

/-- C5 witness: a concrete check invocation exiting with code 2 yields
`Ok(false)`. -/
theorem C5_exists_check_path_witness :
    existsFn ⟨"iptables", true, true⟩ "filter" "INPUT" "-j ACCEPT"
      ⟨SpawnOutcome.success ⟨"", some 2⟩, none, []⟩ =
      some (IPTResult.ok false,
        [Event.spawn ["-t", "filter", "-C", "INPUT", "-j", "ACCEPT", "--wait"]]) ∧
    (IPTResult.ok false : IPTResult Bool) = IPTResult.ok false := by
  refine ⟨by decide, ?_⟩
  exact (((C5_exists_check_path ⟨"iptables", true, true⟩ "filter" "INPUT" "-j ACCEPT"
    ⟨SpawnOutcome.success ⟨"", some 2⟩, none, []⟩ (IPTResult.ok false)
    [Event.spawn ["-t", "filter", "-C", "INPUT", "-j", "ACCEPT", "--wait"]]
    rfl (by decide)).2
    ⟨["-t", "filter", "-C", "INPUT", "-j", "ACCEPT", "--wait"], by decide⟩).1
    ⟨"", some 2⟩ rfl).2.1 (Or.inr rfl)

/-- C6 (amended): without atomic check, `exists` lists the whole table's
rule-set in append form — the listing invocation's argument vector is
`-t table -S` (plus the wait flag when applicable) and never mentions the
chain — and on exit code 0 (or missing code) returns `Ok(b)` where `b` holds
exactly when stdout contains the substring `-A <chain> <rule>`; invoker
errors propagate unchanged. -/
theorem C6_exists_fallback : ∀ ipt table chain rule env res tr,
    ipt.has_check = false →
    existsFn ipt table chain rule env = some (res, tr) →
    (∀ a, Event.spawn a ∈ tr →
       a = ["-t", table, "-S"] ∨ a = ["-t", table, "-S", "--wait"]) ∧
    ((∃ a, Event.spawn a ∈ tr) →
      (∀ out, env.spawnResult = SpawnOutcome.success out →
        ((out.code = none ∨ out.code = some 0) →
          res = IPTResult.ok (strContains out.stdout ("-A " ++ chain ++ " " ++ rule))) ∧
        (∀ i, out.code = some i → i ≠ 0 → res = IPTResult.error (IPTError.BadExitStatus i))) ∧
      (∀ k, env.spawnResult = SpawnOutcome.ioError k →
         res = IPTResult.error (IPTError.IoErr k))) := by
  intro ipt table chain rule env res tr hc h
  rw [existsFn, if_pos hc] at h
  obtain ⟨r0, hrun, hcase⟩ := existsOldVersion_split _ _ _ _ _ _ _ h
  constructor
  · intro a ha
    rcases run_spawn_args _ _ _ _ _ hrun a ha with h1 | h1
    · exact Or.inl h1
    · exact Or.inr (by rw [h1]; rfl)
  · intro hsp
    obtain ⟨hsucc, hio⟩ := run_result_spawned _ _ _ _ _ hrun hsp
    constructor
    · intro out hs
      have hr0 : r0 = exitToResult out := hsucc out hs
      constructor
      · intro hcode
        rw [exitToResult_ok out hcode] at hr0
        rcases hcase with ⟨out', hok, hres⟩ | ⟨e, herr, _⟩
        · rw [hr0] at hok
          injection hok with he
          subst he
          exact hres
        · rw [hr0] at herr; exact IPTResult.noConfusion herr
      · intro i hcode h0
        rw [exitToResult_bad out i hcode h0] at hr0
        rcases hcase with ⟨out', hok, _⟩ | ⟨e, herr, hres⟩
        · rw [hr0] at hok; exact IPTResult.noConfusion hok
        · rw [hr0] at herr
          injection herr with he
          subst he
          exact hres
    · intro k hs
      have hr0 : r0 = IPTResult.error (IPTError.IoErr k) := hio k hs
      rcases hcase with ⟨out', hok, _⟩ | ⟨e, herr, hres⟩
      · rw [hr0] at hok; exact IPTResult.noConfusion hok
      · rw [hr0] at herr
        injection herr with he
        subst he
        exact hres

/-- C6 counterexample: the claim states that the fallback "lists the chain's
rule-set", i.e. the listing invocation is restricted to the chain; but on a
concrete call the only spawn carries the argument vector
`-t filter -S --wait`, which does not mention the chain `FOO` at all — the
code lists the whole table. -/
theorem C6_exists_fallback_counterexample :
    existsFn ⟨"iptables", false, true⟩ "filter" "FOO" "-j ACCEPT"
      ⟨SpawnOutcome.success ⟨"", some 0⟩, none, []⟩ =
      some (IPTResult.ok false, [Event.spawn ["-t", "filter", "-S", "--wait"]]) ∧
    "FOO" ∉ ["-t", "filter", "-S", "--wait"] := by
  exact ⟨by decide, by decide⟩

/-- C6 witness: a concrete fallback call whose table listing contains
`-A FOO -j ACCEPT` returns `Ok(true)` via the substring match. -/
theorem C6_exists_fallback_witness :
    existsFn ⟨"iptables", false, false⟩ "filter" "FOO" "-j ACCEPT"
      ⟨SpawnOutcome.success ⟨"-A FOO -j ACCEPT\n", some 0⟩, none, [none]⟩ =
      some (IPTResult.ok true, [Event.lockCreated, Event.flockOk,
        Event.spawn ["-t", "filter", "-S"], Event.lockClosed]) ∧
    IPTResult.ok true = (IPTResult.ok (strContains "-A FOO -j ACCEPT\n"
      ("-A " ++ "FOO" ++ " " ++ "-j ACCEPT")) : IPTResult Bool) := by
  refine ⟨by decide, ?_⟩
  exact (((C6_exists_fallback ⟨"iptables", false, false⟩ "filter" "FOO" "-j ACCEPT"
    ⟨SpawnOutcome.success ⟨"-A FOO -j ACCEPT\n", some 0⟩, none, [none]⟩
    (IPTResult.ok true)
    [Event.lockCreated, Event.flockOk, Event.spawn ["-t", "filter", "-S"], Event.lockClosed]
    rfl (by decide)).2 ⟨["-t", "filter", "-S"], by decide⟩).1
    ⟨"-A FOO -j ACCEPT\n", some 0⟩ rfl).1 (Or.inr rfl)

/-- The only error the static table map produces is the fixed message. -/
theorem gbc_error_shape : ∀ t e, get_builtin_chains t = IPTResult.error e →
    e = IPTError.Other "given table is not supported by iptables" := by
  intro t e h
  rw [get_builtin_chains] at h
  repeat' split at h
  any_goals exact IPTResult.noConfusion h
  injection h with he
  exact he.symm

/-- C7: whenever the chain is not in the static builtin list of the table
(in particular whenever the table is not one of the five supported names),
`get_policy` and `set_policy` return a domain (`Other`) error with an empty
event trace — the external process is never invoked; the membership test
reads only the static map. -/
theorem C7_policy_builtin_guard : ∀ ipt table chain policy env,
    (∀ bc, get_builtin_chains table = IPTResult.ok bc → chain ∉ bc) →
    (∃ m, getPolicy ipt table chain env =
       some (GetPolicyOutcome.returns (IPTResult.error (IPTError.Other m)), [])) ∧
    (∃ m, setPolicy ipt table chain policy env =
       some (IPTResult.error (IPTError.Other m), [])) := by
  intro ipt table chain policy env h
  cases hbc : get_builtin_chains table with
  | error e =>
    have he := gbc_error_shape table e hbc
    subst he
    constructor
    · exact ⟨"given table is not supported by iptables", by simp [getPolicy, hbc]⟩
    · exact ⟨"given table is not supported by iptables", by simp [setPolicy, hbc]⟩
  | ok bc =>
    have hnotin : ¬ chain ∈ bc := h bc hbc
    constructor
    · exact ⟨"given chain is not a default chain in the given table, can not get policy",
        by simp [getPolicy, hbc, hnotin]⟩
    · exact ⟨"given chain is not a default chain in the given table, can not set policy",
        by simp [setPolicy, hbc, hnotin]⟩

/-- C7 witness: a user-defined chain name in the filter table is rejected by
both policy operations without any event. -/
theorem C7_policy_builtin_guard_witness :
    (∀ bc, get_builtin_chains "filter" = IPTResult.ok bc → "MYCHAIN" ∉ bc) ∧
    (∃ m, getPolicy ⟨"iptables", true, true⟩ "filter" "MYCHAIN"
       ⟨SpawnOutcome.success ⟨"", some 0⟩, none, []⟩ =
       some (GetPolicyOutcome.returns (IPTResult.error (IPTError.Other m)), [])) ∧
    (∃ m, setPolicy ⟨"iptables", true, true⟩ "filter" "MYCHAIN" "DROP"
       ⟨SpawnOutcome.success ⟨"", some 0⟩, none, []⟩ =
       some (IPTResult.error (IPTError.Other m), [])) := by
  have hb : ∀ bc, get_builtin_chains "filter" = IPTResult.ok bc → "MYCHAIN" ∉ bc := by
    intro bc hbc
    have h0 : get_builtin_chains "filter" = IPTResult.ok BUILTIN_CHAINS_FILTER := by decide
    rw [h0] at hbc
    injection hbc with he
    rw [← he]
    decide
  obtain ⟨h1, h2⟩ := C7_policy_builtin_guard ⟨"iptables", true, true⟩ "filter" "MYCHAIN" "DROP"
    ⟨SpawnOutcome.success ⟨"", some 0⟩, none, []⟩ hb
  exact ⟨hb, h1, h2⟩

/-- C10: on process output whose matched `Chain <name>` header line has
fewer than four space-separated fields — concretely `Chain INPUT` — the line
scan of `get_policy` indexes out of bounds and panics instead of returning a
tagged error; on a well-formed header line `Chain INPUT (policy ACCEPT)` it
returns the fourth field with the closing parenthesis stripped. -/
theorem C10_get_policy_panics :
    getPolicy ⟨"iptables", true, true⟩ "filter" "INPUT"
      ⟨SpawnOutcome.success ⟨"Chain INPUT\n", some 0⟩, none, []⟩ =
      some (GetPolicyOutcome.panics, [Event.spawn ["-t", "filter", "-L", "INPUT", "--wait"]]) ∧
    getPolicy ⟨"iptables", true, true⟩ "filter" "INPUT"
      ⟨SpawnOutcome.success ⟨"Chain INPUT (policy ACCEPT)\ntarget prot opt\n", some 0⟩,
        none, []⟩ =
      some (GetPolicyOutcome.returns (IPTResult.ok "ACCEPT"),
        [Event.spawn ["-t", "filter", "-L", "INPUT", "--wait"]]) := by
  exact ⟨by decide, by decide⟩

/-- Membership is preserved from `takeWhile` back to the list. -/
theorem mem_takeWhileChars : ∀ (p : Char → Bool) (l : List Char) (a : Char),
    a ∈ l.takeWhile p → a ∈ l := by
  intro p l
  induction l with
  | nil => intro a h; simp at h
  | cons c rest ih =>
    intro a h
    rw [List.takeWhile_cons] at h
    by_cases hp : p c = true
    · rw [if_pos hp] at h
      rcases List.mem_cons.mp h with h1 | h1
      · exact h1 ▸ List.mem_cons_self c rest
      · exact List.mem_cons_of_mem c (ih a h1)
    · rw [if_neg hp] at h
      simp at h

/-- Membership is preserved from `dropWhile` back to the list. -/
theorem mem_dropWhileChars : ∀ (p : Char → Bool) (l : List Char) (a : Char),
    a ∈ l.dropWhile p → a ∈ l := by
  intro p l
  induction l with
  | nil => intro a h; simp at h
  | cons c rest ih =>
    intro a h
    rw [List.dropWhile_cons] at h
    by_cases hp : p c = true
    · rw [if_pos hp] at h
      exact List.mem_cons_of_mem c (ih a h)
    · rw [if_neg hp] at h
      exact h

/-- `dropWhile` does not lengthen a list. -/
theorem dropWhile_length_le : ∀ (p : Char → Bool) (l : List Char),
    (l.dropWhile p).length ≤ l.length := by
  intro p l
  induction l with
  | nil => simp
  | cons c rest ih =>
    rw [List.dropWhile_cons]
    by_cases hp : p c = true
    · rw [if_pos hp]
      exact Nat.le_succ_of_le ih
    · rw [if_neg hp]

/-- `dropWhile` is the identity when no element satisfies the predicate. -/
theorem dropWhile_all_false : ∀ (p : Char → Bool) (l : List Char),
    (∀ c ∈ l, p c = false) → l.dropWhile p = l := by
  intro p l h
  cases l with
  | nil => rfl
  | cons c rest =>
    rw [List.dropWhile_cons, if_neg]
    simp [h c (List.mem_cons_self c rest)]

/-- Quote trimming is the identity on tokens without quote characters. -/
theorem trimQuotes_id : ∀ t : List Char, (∀ c ∈ t, isQuote c = false) → trimQuotes t = t := by
  intro t ht
  rw [trimQuotes, dropWhile_all_false _ _ ht, dropWhile_all_false, List.reverse_reverse]
  intro c hc
  exact ht c (List.mem_reverse.mp hc)

/-- On inputs without quote characters the regex pass produces exactly the
maximal runs of non-space characters. -/
theorem coreB_eq_wordsB : ∀ b : Nat, ∀ l : List Char, l.length ≤ b →
    (∀ c ∈ l, isQuote c = false) → splitQuotedB b l = wordsB b l := by
  intro b
  induction b with
  | zero =>
    intro l hlen _
    rw [List.length_eq_zero.mp (Nat.le_zero.mp hlen)]
    rfl
  | succ b ih =>
    intro l hlen hq
    cases l with
    | nil => rfl
    | cons c rest =>
      rw [splitQuotedB, wordsB]
      by_cases hc : c = ' '
      · rw [if_pos hc, if_pos hc]
        exact ih rest (by simpa using hlen) (fun a ha => hq a (List.mem_cons_of_mem c ha))
      · have hcq : isQuote c = false := hq c (List.mem_cons_self c rest)
        rw [if_neg hc, if_neg hc, if_neg (by simp [hcq])]
        congr 1
        refine ih (rest.dropWhile (fun d => d != ' ')) ?_ ?_
        · exact Nat.le_trans (dropWhile_length_le _ rest) (by simpa using hlen)
        · exact fun a ha => hq a (List.mem_cons_of_mem c (mem_dropWhileChars _ rest a ha))

/-- Every character of every token of `wordsB` comes from the input. -/
theorem wordsB_chars : ∀ b : Nat, ∀ l t : List Char, t ∈ wordsB b l → ∀ c ∈ t, c ∈ l := by
  intro b
  induction b with
  | zero =>
    intro l t ht
    cases l <;> simp [wordsB] at ht
  | succ b ih =>
    intro l t ht
    cases l with
    | nil => simp [wordsB] at ht
    | cons c rest =>
      rw [wordsB] at ht
      by_cases hc : c = ' '
      · rw [if_pos hc] at ht
        exact fun a ha => List.mem_cons_of_mem c (ih rest t ht a ha)
      · rw [if_neg hc] at ht
        rcases List.mem_cons.mp ht with h1 | h1
        · intro a ha
          rw [h1] at ha
          rcases List.mem_cons.mp ha with h2 | h2
          · exact h2 ▸ List.mem_cons_self c rest
          · exact List.mem_cons_of_mem c (mem_takeWhileChars _ rest a h2)
        · intro a ha
          exact List.mem_cons_of_mem c
            (mem_dropWhileChars _ rest a (ih (rest.dropWhile (fun d => d != ' ')) t h1 a ha))

/-- The lazy closing-quote scan equals the declarative description: find the
first quote character of the remainder; succeed exactly when the characters
before it contain no newline. -/
theorem scanCloseGo_spec : ∀ (l acc : List Char),
    scanCloseGo acc l =
      (match nearestQuoteIdx l with
       | some j =>
         if (l.take j).all (fun d => d != Char.ofNat 10) then
           some (acc.reverse ++ l.take (j + 1), l.drop (j + 1))
         else none
       | none => none) := by
  intro l
  induction l with
  | nil => intro acc; rfl
  | cons d rest ih =>
    intro acc
    by_cases hq : isQuote d = true
    · simp [scanCloseGo, nearestQuoteIdx, hq]
    · by_cases hnl : d = Char.ofNat 10
      · subst hnl
        cases hrest : nearestQuoteIdx rest with
        | none =>
          simp [scanCloseGo, nearestQuoteIdx, hq, hrest]
        | some j0 =>
          simp [scanCloseGo, nearestQuoteIdx, hq, hrest]
      · cases hrest : nearestQuoteIdx rest with
        | none =>
          simp [scanCloseGo, nearestQuoteIdx, hq, hnl, hrest, ih]
        | some j0 =>
          have hd : (d != Char.ofNat 10) = true := by simp [hnl]
          by_cases hall : (rest.take j0).all (fun d => d != Char.ofNat 10) = true
          · simp [scanCloseGo, nearestQuoteIdx, hq, hnl, hrest, ih, hd, hall]
          · simp [scanCloseGo, nearestQuoteIdx, hq, hnl, hrest, ih, hd, hall]

/-- `scanClose` (the regex alternative `["'].+?["']` after the opening
quote) succeeds exactly when a nearest subsequent quote character of either
kind exists at index at least 1 with no newline before it, and then consumes
the span up to and including that quote. -/
theorem scanClose_eq_closeIdx : ∀ l : List Char,
    scanClose l =
      (match closeIdx l with
       | some j =>
         if (l.take j).all (fun d => d != Char.ofNat 10) then
           some (l.take (j + 1), l.drop (j + 1))
         else none
       | none => none) := by
  intro l
  cases l with
  | nil => rfl
  | cons x rest0 =>
    by_cases hx : x = Char.ofNat 10
    · subst hx
      cases hr : nearestQuoteIdx rest0 with
      | none => simp [scanClose, closeIdx, hr]
      | some j0 => simp [scanClose, closeIdx, hr]
    · cases hr : nearestQuoteIdx rest0 with
      | none =>
        simp [scanClose, closeIdx, hx, hr, scanCloseGo_spec]
      | some j0 =>
        have hxb : (x != Char.ofNat 10) = true := by simp [hx]
        simp [scanClose, closeIdx, hx, hr, scanCloseGo_spec, hxb]

/-- Each token of the tokenizer, after quote trimming, is exactly what the
amended description produces: this holds for EVERY input and bound. -/
theorem splitQuotedB_eq_amended : ∀ (b : Nat) (l : List Char),
    (splitQuotedB b l).map trimQuotes = amendedTokensB b l := by
  intro b
  induction b with
  | zero => intro l; cases l <;> rfl
  | succ b ih =>
    intro l
    cases l with
    | nil => rfl
    | cons c rest =>
      rw [splitQuotedB, amendedTokensB]
      by_cases hc : c = ' '
      · rw [if_pos hc, if_pos hc]
        exact ih rest
      · rw [if_neg hc, if_neg hc]
        by_cases hq : isQuote c = true
        · rw [if_pos hq, if_pos hq]
          cases hci : closeIdx rest with
          | none =>
            have hsc : scanClose rest = none := by
              rw [scanClose_eq_closeIdx, hci]
            rw [hsc]
            simp [ih]
          | some j =>
            by_cases hall : (rest.take j).all (fun d => d != Char.ofNat 10) = true
            · have hsc : scanClose rest = some (rest.take (j + 1), rest.drop (j + 1)) := by
                rw [scanClose_eq_closeIdx, hci]
                simp [hall]
              rw [hsc]
              simp [hall, ih]
            · have hsc : scanClose rest = none := by
                rw [scanClose_eq_closeIdx, hci]
                simp [hall]
              rw [hsc]
              simp [hall, ih]
        · rw [if_neg hq, if_neg hq]
          simp [ih]

/-- C2 (amended): for EVERY rule string the tokenizer emits, in source
order, exactly the tokens of the amended description — one token per span
opened by a quote character and closed by the nearest subsequent quote
character of either kind (at least one character between them, no
intervening newline), stripped of all leading and trailing quote
characters, and one token per other maximal run of non-space characters,
likewise stripped; the empty input yields the empty sequence; on inputs
without quote characters the tokens are exactly the maximal runs of
non-space characters, so whitespace outside quoted spans never appears in
any token; and the function is total (no input is an error). -/
theorem C2_tokenizer :
    (∀ s : String, split_quoted s = amendedTokens s) ∧
    (∀ s : String, s.data = [] → split_quoted s = []) ∧
    (∀ s : String, (∀ c ∈ s.data, isQuote c = false) →
       split_quoted s = (wordsOf s.data).map (fun t => String.mk t)) := by
  refine ⟨?_, ?_, ?_⟩
  · intro s
    rw [split_quoted, splitQuotedCore, amendedTokens, ← splitQuotedB_eq_amended,
      List.map_map]
    rfl
  · intro s h
    rw [split_quoted, splitQuotedCore, h]
    rfl
  · intro s h
    rw [split_quoted, splitQuotedCore, wordsOf,
      coreB_eq_wordsB s.data.length s.data le_rfl h]
    refine List.map_congr_left ?_
    intro t ht
    rw [trimQuotes_id]
    intro c hc
    exact h c (wordsB_chars s.data.length s.data t ht c hc)

/-- C2 counterexamples to the original claim.  First input (a single quote,
`a`, a space, `b`, a double quote): no span is delimited by MATCHING quotes,
so the claimed contract produces the two maximal non-space runs with the
space in no token; the code treats the mismatched pair as one quoted span
and emits the single token `a b`, space included.  Second input (one lone
single-quote character): the claimed contract emits the run verbatim, but
the code strips the quote character from the unquoted run and emits the
empty token. -/
theorem C2_tokenizer_counterexample :
    (split_quoted (String.mk [squote, 'a', ' ', 'b', dquote]) = [String.mk ['a', ' ', 'b']] ∧
     specTokens (String.mk [squote, 'a', ' ', 'b', dquote]) =
       [String.mk [squote, 'a'], String.mk ['b', dquote]] ∧
     split_quoted (String.mk [squote, 'a', ' ', 'b', dquote]) ≠
       specTokens (String.mk [squote, 'a', ' ', 'b', dquote])) ∧
    (split_quoted (String.mk [squote]) = [String.mk []] ∧
     specTokens (String.mk [squote]) = [String.mk [squote]] ∧
     split_quoted (String.mk [squote]) ≠ specTokens (String.mk [squote])) := by
  exact ⟨⟨by decide, by decide, by decide⟩, ⟨by decide, by decide, by decide⟩⟩

/-- C2 witness: the amended theorem applied to the quote-free input `ab c`
yields the two maximal non-space runs, and its universal clause evaluated on
the mismatched-quote input yields the single stripped span token. -/
theorem C2_tokenizer_witness :
    (∀ c ∈ ("ab c" : String).data, isQuote c = false) ∧
    split_quoted "ab c" = ["ab", "c"] ∧
    split_quoted (String.mk [squote, 'a', ' ', 'b', dquote]) =
      amendedTokens (String.mk [squote, 'a', ' ', 'b', dquote]) ∧
    amendedTokens (String.mk [squote, 'a', ' ', 'b', dquote]) = [String.mk ['a', ' ', 'b']] := by
  refine ⟨by decide, ?_, C2_tokenizer.1 (String.mk [squote, 'a', ' ', 'b', dquote]), by decide⟩
  rw [C2_tokenizer.2.2 "ab c" (by decide)]
  decide

/-- After `n` iterations in which `exists` answered `Ok(true)` and `delete`
succeeded, an `exists` answer of `Ok(false)` terminates `delete_all` with
`Ok(true)`. -/
theorem deleteAll_stops_on_false : ∀ ipt table chain rule (envs : Nat → RunEnv) (n : Nat),
    ∀ k fuel,
    (∀ j, j < n →
      (∃ tr, existsFn ipt table chain rule (envs (k + 2 * j)) = some (IPTResult.ok true, tr)) ∧
      (∃ tr, deleteFn ipt table chain rule (envs (k + 2 * j + 1)) = some (IPTResult.ok (), tr))) →
    (∃ tr, existsFn ipt table chain rule (envs (k + 2 * n)) = some (IPTResult.ok false, tr)) →
    n < fuel →
    deleteAll ipt table chain rule envs k fuel = some (IPTResult.ok true) := by
  intro ipt table chain rule envs n
  induction n with
  | zero =>
    intro k fuel _ hfalse hlt
    obtain ⟨tr0, he⟩ := hfalse
    simp only [Nat.mul_zero, Nat.add_zero] at he
    cases fuel with
    | zero => omega
    | succ f => simp only [deleteAll, he]
  | succ n ih =>
    intro k fuel h hfalse hlt
    cases fuel with
    | zero => omega
    | succ f =>
      obtain ⟨⟨tre, he⟩, ⟨trd, hd⟩⟩ := h 0 (Nat.succ_pos n)
      simp only [Nat.mul_zero, Nat.add_zero] at he hd
      simp only [deleteAll, he, hd]
      refine ih (k + 2) f ?_ ?_ (by omega)
      · intro j hj
        have hshift := h (j + 1) (by omega)
        have e1 : k + 2 * (j + 1) = k + 2 + 2 * j := by omega
        rw [e1] at hshift
        exact hshift
      · have e3 : k + 2 * (n + 1) = k + 2 + 2 * n := by omega
        rw [e3] at hfalse
        exact hfalse

/-- An error from the `exists` call of an iteration terminates `delete_all`
with that error. -/
theorem deleteAll_stops_on_exists_error : ∀ ipt table chain rule (envs : Nat → RunEnv)
    (n : Nat), ∀ k fuel e,
    (∀ j, j < n →
      (∃ tr, existsFn ipt table chain rule (envs (k + 2 * j)) = some (IPTResult.ok true, tr)) ∧
      (∃ tr, deleteFn ipt table chain rule (envs (k + 2 * j + 1)) = some (IPTResult.ok (), tr))) →
    (∃ tr, existsFn ipt table chain rule (envs (k + 2 * n)) = some (IPTResult.error e, tr)) →
    n < fuel →
    deleteAll ipt table chain rule envs k fuel = some (IPTResult.error e) := by
  intro ipt table chain rule envs n
  induction n with
  | zero =>
    intro k fuel e _ herr hlt
    obtain ⟨tr0, he⟩ := herr
    simp only [Nat.mul_zero, Nat.add_zero] at he
    cases fuel with
    | zero => omega
    | succ f => simp only [deleteAll, he]
  | succ n ih =>
    intro k fuel e h herr hlt
    cases fuel with
    | zero => omega
    | succ f =>
      obtain ⟨⟨tre, he⟩, ⟨trd, hd⟩⟩ := h 0 (Nat.succ_pos n)
      simp only [Nat.mul_zero, Nat.add_zero] at he hd
      simp only [deleteAll, he, hd]
      refine ih (k + 2) f e ?_ ?_ (by omega)
      · intro j hj
        have hshift := h (j + 1) (by omega)
        have e1 : k + 2 * (j + 1) = k + 2 + 2 * j := by omega
        rw [e1] at hshift
        exact hshift
      · have e3 : k + 2 * (n + 1) = k + 2 + 2 * n := by omega
        rw [e3] at herr
        exact herr

/-- An error from the `delete` call of an iteration terminates `delete_all`
with that error. -/
theorem deleteAll_stops_on_delete_error : ∀ ipt table chain rule (envs : Nat → RunEnv)
    (n : Nat), ∀ k fuel e,
    (∀ j, j < n →
      (∃ tr, existsFn ipt table chain rule (envs (k + 2 * j)) = some (IPTResult.ok true, tr)) ∧
      (∃ tr, deleteFn ipt table chain rule (envs (k + 2 * j + 1)) = some (IPTResult.ok (), tr))) →
    (∃ tr, existsFn ipt table chain rule (envs (k + 2 * n)) = some (IPTResult.ok true, tr)) →
    (∃ tr, deleteFn ipt table chain rule (envs (k + 2 * n + 1)) = some (IPTResult.error e, tr)) →
    n < fuel →
    deleteAll ipt table chain rule envs k fuel = some (IPTResult.error e) := by
  intro ipt table chain rule envs n
  induction n with
  | zero =>
    intro k fuel e _ htrue herr hlt
    obtain ⟨tr0, he⟩ := htrue
    obtain ⟨tr1, hd⟩ := herr
    simp only [Nat.mul_zero, Nat.add_zero] at he hd
    cases fuel with
    | zero => omega
    | succ f => simp only [deleteAll, he, hd]
  | succ n ih =>
    intro k fuel e h htrue herr hlt
    cases fuel with
    | zero => omega
    | succ f =>
      obtain ⟨⟨tre, he⟩, ⟨trd, hd⟩⟩ := h 0 (Nat.succ_pos n)
      simp only [Nat.mul_zero, Nat.add_zero] at he hd
      simp only [deleteAll, he, hd]
      refine ih (k + 2) f e ?_ ?_ ?_ (by omega)
      · intro j hj
        have hshift := h (j + 1) (by omega)
        have e1 : k + 2 * (j + 1) = k + 2 + 2 * j := by omega
        rw [e1] at hshift
        exact hshift
      · have e3 : k + 2 * (n + 1) = k + 2 + 2 * n := by omega
        rw [e3] at htrue
        exact htrue
      · have e4 : k + 2 * (n + 1) + 1 = k + 2 + 2 * n + 1 := by omega
        rw [e4] at herr
        exact herr

/-- When `delete_all` terminates with `Ok(true)`, some iteration's `exists`
call answered `Ok(false)`. -/
theorem deleteAll_ok_needs_false : ∀ ipt table chain rule (envs : Nat → RunEnv),
    ∀ fuel k, deleteAll ipt table chain rule envs k fuel = some (IPTResult.ok true) →
    ∃ n tr, existsFn ipt table chain rule (envs (k + 2 * n)) =
      some (IPTResult.ok false, tr) := by
  intro ipt table chain rule envs fuel
  induction fuel with
  | zero =>
    intro k h
    exact Option.noConfusion h
  | succ f ih =>
    intro k h
    simp only [deleteAll] at h
    cases he : existsFn ipt table chain rule (envs k) with
    | none => rw [he] at h; exact Option.noConfusion h
    | some p =>
      rw [he] at h
      obtain ⟨r0, tr0⟩ := p
      cases r0 with
      | error e => simp at h
      | ok b =>
        cases b with
        | false => exact ⟨0, tr0, by simpa using he⟩
        | true =>
          cases hd : deleteFn ipt table chain rule (envs (k + 1)) with
          | none => rw [hd] at h; exact Option.noConfusion h
          | some q =>
            rw [hd] at h
            obtain ⟨r1, tr1⟩ := q
            cases r1 with
            | error e => simp at h
            | ok u =>
              obtain ⟨n, tr, hn⟩ := ih (k + 2) h
              refine ⟨n + 1, tr, ?_⟩
              have e1 : k + 2 * (n + 1) = k + 2 + 2 * n := by omega
              rw [e1]
              exact hn

/-- When every iteration's `exists` answers `Ok(true)` and every `delete`
succeeds, `delete_all` never terminates: it exceeds every iteration bound. -/
theorem deleteAll_diverges : ∀ ipt table chain rule (envs : Nat → RunEnv),
    ∀ fuel k,
    (∀ j,
      (∃ tr, existsFn ipt table chain rule (envs (k + 2 * j)) = some (IPTResult.ok true, tr)) ∧
      (∃ tr, deleteFn ipt table chain rule (envs (k + 2 * j + 1)) = some (IPTResult.ok (), tr))) →
    deleteAll ipt table chain rule envs k fuel = none := by
  intro ipt table chain rule envs fuel
  induction fuel with
  | zero => intro k _; rfl
  | succ f ih =>
    intro k h
    obtain ⟨⟨tre, he⟩, ⟨trd, hd⟩⟩ := h 0
    simp only [Nat.mul_zero, Nat.add_zero] at he hd
    simp only [deleteAll, he, hd]
    refine ih (k + 2) ?_
    intro j
    have hshift := h (j + 1)
    have e1 : k + 2 * (j + 1) = k + 2 + 2 * j := by omega
    rw [e1] at hshift
    exact hshift

/-- C8: `delete_all` loops on the truthiness of `exists` alone: it returns
`Ok(true)` exactly when some iteration's `exists` answers `Ok(false)` (after
a prefix of successful true-then-delete iterations), it propagates the first
error of `exists` or of `delete` immediately, and when `exists` keeps
answering `Ok(true)` with every `delete` succeeding it does not terminate —
it exceeds every iteration bound. -/
theorem C8_delete_all_loop :
    (∀ ipt table chain rule (envs : Nat → RunEnv) (n k fuel : Nat),
      (∀ j, j < n →
        (∃ tr, existsFn ipt table chain rule (envs (k + 2 * j)) = some (IPTResult.ok true, tr)) ∧
        (∃ tr, deleteFn ipt table chain rule (envs (k + 2 * j + 1)) =
          some (IPTResult.ok (), tr))) →
      (∃ tr, existsFn ipt table chain rule (envs (k + 2 * n)) = some (IPTResult.ok false, tr)) →
      n < fuel →
      deleteAll ipt table chain rule envs k fuel = some (IPTResult.ok true)) ∧
    (∀ ipt table chain rule (envs : Nat → RunEnv) (n k fuel : Nat) (e : IPTError),
      (∀ j, j < n →
        (∃ tr, existsFn ipt table chain rule (envs (k + 2 * j)) = some (IPTResult.ok true, tr)) ∧
        (∃ tr, deleteFn ipt table chain rule (envs (k + 2 * j + 1)) =
          some (IPTResult.ok (), tr))) →
      (∃ tr, existsFn ipt table chain rule (envs (k + 2 * n)) = some (IPTResult.error e, tr)) →
      n < fuel →
      deleteAll ipt table chain rule envs k fuel = some (IPTResult.error e)) ∧
    (∀ ipt table chain rule (envs : Nat → RunEnv) (n k fuel : Nat) (e : IPTError),
      (∀ j, j < n →
        (∃ tr, existsFn ipt table chain rule (envs (k + 2 * j)) = some (IPTResult.ok true, tr)) ∧
        (∃ tr, deleteFn ipt table chain rule (envs (k + 2 * j + 1)) =
          some (IPTResult.ok (), tr))) →
      (∃ tr, existsFn ipt table chain rule (envs (k + 2 * n)) = some (IPTResult.ok true, tr)) →
      (∃ tr, deleteFn ipt table chain rule (envs (k + 2 * n + 1)) =
        some (IPTResult.error e, tr)) →
      n < fuel →
      deleteAll ipt table chain rule envs k fuel = some (IPTResult.error e)) ∧
    (∀ ipt table chain rule (envs : Nat → RunEnv) (fuel k : Nat),
      deleteAll ipt table chain rule envs k fuel = some (IPTResult.ok true) →
      ∃ n tr, existsFn ipt table chain rule (envs (k + 2 * n)) =
        some (IPTResult.ok false, tr)) ∧
    (∀ ipt table chain rule (envs : Nat → RunEnv) (fuel k : Nat),
      (∀ j,
        (∃ tr, existsFn ipt table chain rule (envs (k + 2 * j)) = some (IPTResult.ok true, tr)) ∧
        (∃ tr, deleteFn ipt table chain rule (envs (k + 2 * j + 1)) =
          some (IPTResult.ok (), tr))) →
      deleteAll ipt table chain rule envs k fuel = none) :=
  ⟨deleteAll_stops_on_false, deleteAll_stops_on_exists_error,
    deleteAll_stops_on_delete_error, deleteAll_ok_needs_false, deleteAll_diverges⟩

/-- C8 witness: on a concrete environment stream in which the very first
`exists` check exits with code 1 (rule absent), `delete_all` terminates
immediately with `Ok(true)`. -/
theorem C8_delete_all_loop_witness :
    deleteAll ⟨"iptables", true, true⟩ "filter" "INPUT" "-j ACCEPT"
      (fun _ => ⟨SpawnOutcome.success ⟨"", some 1⟩, none, []⟩) 0 1 =
      some (IPTResult.ok true) := by
  refine C8_delete_all_loop.1 ⟨"iptables", true, true⟩ "filter" "INPUT" "-j ACCEPT"
    (fun _ => ⟨SpawnOutcome.success ⟨"", some 1⟩, none, []⟩) 0 0 1
    (fun j hj => absurd hj (by omega))
    ⟨[Event.spawn ["-t", "filter", "-C", "INPUT", "-j", "ACCEPT", "--wait"]], by decide⟩
    (by omega)

end Ipt
